import Mathlib

/-!
Verification development for the `tvis` process-monitor data engine.

The Rust sources are shallowly embedded:
* `f32` measurement scalars become `ℚ` (the algorithms only add, subtract,
  divide and compare; rounding of `f32` is out of scope, as the spec allows
  for the average and the counterexamples below use values that are exact
  in `f32`);
* `usize` indices/pids become `ℕ`;
* `HashMap` iteration becomes iteration over an explicit snapshot list, and
  `HashMap` keyed storage becomes an association list;
* fallible lookups return `Option`.

The embedding covers, file by file:
* `src/process/history.rs`   — `Tvis.CircularBuffer`, `Tvis.PH1.ProcessHistory`
* `src/metrics/process/history.rs` — `Tvis.PH2.ProcessHistory` (same
  `CircularBuffer` code, child histories grouped per monitored process)
* `src/process/mod.rs` (= `src/metrics/process/mod.rs`) — `Tvis.ProcessIdentifier`
  with its `From<&str>` / `ToString` pair
* `src/process/monitor.rs`   — `Tvis.Monitor.collect_processes` and
  `Tvis.Monitor.collect_child_pids`
* `src/metrics/mod.rs`       — the per-identifier aggregation of the
  background refresh worker in `Metrics::new`.
-/

namespace Tvis

/-! ## CircularBuffer (src/process/history.rs lines 46-124; the identical
push/as_slice code also appears in src/metrics/process/history.rs) -/

/-- The fixed-size circular buffer of `src/process/history.rs`.
`data` has fixed length (the capacity), `position` is the write cursor,
`peak_value` the cached peak, `sum` the running sum, `len` the number of
valid slots. -/
structure CircularBuffer where
  data : List ℚ
  position : ℕ
  peak_value : ℚ
  sum : ℚ
  len : ℕ
  deriving Repr, DecidableEq

namespace CircularBuffer

/-- `CircularBuffer::new(size)`: `size` zero-initialised slots. -/
def new (size : ℕ) : CircularBuffer :=
  { data := List.replicate size 0
    position := 0
    peak_value := 0
    sum := 0
    len := 0 }

/-- `CircularBuffer::push(value)`, exactly as in the source: the running sum
drops the slot being overwritten, the slot at `position` is overwritten, the
cursor advances modulo the capacity, and the cached peak is raised by a larger
value or rescanned (fold of `f32::max` over the whole backing array, seeded
with `0.0`) when the cached peak equals the slot at the advanced cursor. -/
def push (b : CircularBuffer) (value : ℚ) : CircularBuffer :=
  let n := b.data.length
  let sum0 := if b.len = n then b.sum - b.data.getD b.position 0 else b.sum
  let len0 := if b.len = n then b.len else b.len + 1
  let sum1 := sum0 + value
  let data1 := b.data.set b.position value
  let pos1 := (b.position + 1) % n
  let peak1 :=
    if b.peak_value < value then value
    else if b.peak_value = data1.getD pos1 0 then data1.foldl max 0
    else b.peak_value
  { data := data1, position := pos1, peak_value := peak1, sum := sum1, len := len0 }

/-- `CircularBuffer::as_slices`: `(data[position..], data[..position])`. -/
def as_slices (b : CircularBuffer) : List ℚ × List ℚ :=
  (b.data.drop b.position, b.data.take b.position)

/-- `CircularBuffer::as_slice`: both halves concatenated (the whole backing
array rotated), as in the source — note the source extends the result with
both full slices, so the result always has `capacity` elements. -/
def as_slice (b : CircularBuffer) : List ℚ :=
  b.as_slices.1 ++ b.as_slices.2

/-- `CircularBuffer::max_value`: returns the cached peak. -/
def max_value (b : CircularBuffer) : ℚ :=
  b.peak_value

/-- `CircularBuffer::last_value`. -/
def last_value (b : CircularBuffer) : ℚ :=
  if b.position = 0 then b.data.getD (b.data.length - 1) 0
  else b.data.getD (b.position - 1) 0

/-- `CircularBuffer::average`: `sum / len`, with `0` when empty. -/
def average (b : CircularBuffer) : ℚ :=
  if b.len = 0 then 0 else b.sum / (b.len : ℚ)

/-- Pushing a whole sequence of samples, oldest first. -/
def pushSeq (b : CircularBuffer) (xs : List ℚ) : CircularBuffer :=
  xs.foldl push b

end CircularBuffer

/-- Spec-side window: the last `min (xs.length) c` pushed values, in push
order (the spec's rolling window of a capacity-`c` metric after pushing
`xs`). -/
def lastWindow (xs : List ℚ) (c : ℕ) : List ℚ :=
  xs.drop (xs.length - c)

/-- State invariant tying a `CircularBuffer` to the push sequence that
produced it: correct backing-array length, element count, cursor, window
content (the rotated backing array is the zero padding of the unfilled slots
followed by the window) and running sum. The cached peak is deliberately
not constrained: the source's peak maintenance is analysed separately. -/
def BufInv (c : ℕ) (xs : List ℚ) (b : CircularBuffer) : Prop :=
  b.data.length = c ∧
  b.len = min xs.length c ∧
  b.position = xs.length % c ∧
  b.data.drop b.position ++ b.data.take b.position
    = List.replicate (c - min xs.length c) 0 ++ lastWindow xs c ∧
  b.sum = (lastWindow xs c).sum

/-! ## ProcessMetrics and the two ProcessHistory revisions -/

/-- `ProcessMetrics` (same shape in both history revisions): a CPU and a
memory `CircularBuffer`. -/
structure ProcessMetrics where
  cpu : CircularBuffer
  memory : CircularBuffer
  deriving Repr, DecidableEq

namespace ProcessMetrics

/-- `ProcessMetrics::new(size)`. -/
def new (size : ℕ) : ProcessMetrics :=
  { cpu := CircularBuffer.new size, memory := CircularBuffer.new size }

/-- `ProcessMetrics::update_cpu`. -/
def update_cpu (m : ProcessMetrics) (value : ℚ) : ProcessMetrics :=
  { m with cpu := m.cpu.push value }

/-- `ProcessMetrics::update_memory`. -/
def update_memory (m : ProcessMetrics) (value : ℚ) : ProcessMetrics :=
  { m with memory := m.memory.push value }

/-- `ProcessMetrics::get_cpu_history`. -/
def get_cpu_history (m : ProcessMetrics) : List ℚ :=
  m.cpu.as_slice

/-- `ProcessMetrics::get_memory_history`. -/
def get_memory_history (m : ProcessMetrics) : List ℚ :=
  m.memory.as_slice

end ProcessMetrics

/-- `HashMap::entry(pid).or_insert_with(default).modify` on an association
list: update the entry in place when the key exists, otherwise append a new
entry built from the default. -/
def updateEntry (m : List (ℕ × ProcessMetrics)) (pid : ℕ)
    (default : ProcessMetrics) (f : ProcessMetrics → ProcessMetrics) :
    List (ℕ × ProcessMetrics) :=
  match m with
  | [] => [(pid, f default)]
  | (k, v) :: t =>
      if k = pid then (k, f v) :: t else (k, v) :: updateEntry t pid default f

/-- `HashMap::get` on an association list. -/
def lookupEntry (m : List (ℕ × ProcessMetrics)) (pid : ℕ) : Option ProcessMetrics :=
  (m.find? (fun kv => kv.1 = pid)).map Prod.snd

/-- The `src/process/history.rs` revision of `ProcessHistory`: per-monitored
process metrics in a `Vec`, child histories in a single process-wide
`HashMap` shared by every monitored process. -/
structure PH1 where
  histories : List ProcessMetrics
  child_histories : List (ℕ × ProcessMetrics)
  history_max_points : ℕ
  deriving Repr, DecidableEq

namespace PH1

/-- `ProcessHistory::new(max_points)` (src/process/history.rs). -/
def new (max_points : ℕ) : PH1 :=
  { histories := [], child_histories := [], history_max_points := max_points }

/-- `ProcessHistory::ensure_process_exists` (`resize_with` fills the gap with
fresh `ProcessMetrics`). -/
def ensure_process_exists (h : PH1) (process_idx : ℕ) : PH1 :=
  if process_idx < h.histories.length then h
  else { h with histories := (h.histories ++
          List.replicate (process_idx + 1 - h.histories.length)
            (ProcessMetrics.new h.history_max_points)) }

/-- `ProcessHistory::update_process_cpu`. -/
def update_process_cpu (h : PH1) (process_idx : ℕ) (cpu_usage : ℚ) : PH1 :=
  let h1 := h.ensure_process_exists process_idx
  { h1 with histories := h1.histories.modify (fun m => m.update_cpu cpu_usage) process_idx }

/-- `ProcessHistory::update_memory`. -/
def update_memory (h : PH1) (process_idx : ℕ) (memory_mb : ℚ) : PH1 :=
  let h1 := h.ensure_process_exists process_idx
  { h1 with histories := h1.histories.modify (fun m => m.update_memory memory_mb) process_idx }

/-- `ProcessHistory::update_child_cpu` (keyed only by pid, one map for all
monitored processes). -/
def update_child_cpu (h : PH1) (pid : ℕ) (cpu_usage : ℚ) : PH1 :=
  { h with child_histories :=
      (updateEntry h.child_histories pid (ProcessMetrics.new h.history_max_points)
        (fun m => m.update_cpu cpu_usage)) }

/-- `ProcessHistory::update_child_memory`. -/
def update_child_memory (h : PH1) (pid : ℕ) (memory_mb : ℚ) : PH1 :=
  { h with child_histories :=
      (updateEntry h.child_histories pid (ProcessMetrics.new h.history_max_points)
        (fun m => m.update_memory memory_mb)) }

/-- `ProcessHistory::get_process_cpu_history`. -/
def get_process_cpu_history (h : PH1) (idx : ℕ) : Option (List ℚ) :=
  (h.histories.get? idx).map ProcessMetrics.get_cpu_history

/-- `ProcessHistory::get_child_cpu_history`. -/
def get_child_cpu_history (h : PH1) (pid : ℕ) : Option (List ℚ) :=
  (lookupEntry h.child_histories pid).map ProcessMetrics.get_cpu_history

/-- `ProcessHistory::clear_process` (src/process/history.rs lines 207-215):
resets the main metrics at `idx` AND clears the whole shared child-history
map. -/
def clear_process (h : PH1) (idx : ℕ) : PH1 :=
  if idx < h.histories.length then
    { h with
      histories := h.histories.set idx (ProcessMetrics.new h.history_max_points)
      child_histories := [] }
  else h

end PH1

/-- A small two-group scenario on the shared-map revision: groups 0 and 1
have main histories (capacity 3), and pid 7 — a member of group 1's tree —
has a child history holding one CPU sample of 5. -/
def ph1Demo : PH1 :=
  ((((PH1.new 3).update_process_cpu 0 1).update_process_cpu 1 2).update_child_cpu 7 5)

/-- `ProcessGroup` of src/metrics/process/history.rs: a monitored process's
own metrics together with its own child-history map. -/
structure ProcessGroup where
  metrics : ProcessMetrics
  child_histories : List (ℕ × ProcessMetrics)
  deriving Repr, DecidableEq

/-- `ProcessGroup::new(size)`. -/
def ProcessGroup.new (size : ℕ) : ProcessGroup :=
  { metrics := ProcessMetrics.new size, child_histories := [] }

/-- The `src/metrics/process/history.rs` revision of `ProcessHistory`:
child histories grouped per monitored process. -/
structure PH2 where
  histories : List ProcessGroup
  history_max_points : ℕ
  deriving Repr, DecidableEq

namespace PH2

/-- `ProcessHistory::new(max_points)` (src/metrics/process/history.rs). -/
def new (max_points : ℕ) : PH2 :=
  { histories := [], history_max_points := max_points }

/-- `ProcessHistory::ensure_process_exists`. -/
def ensure_process_exists (h : PH2) (process_idx : ℕ) : PH2 :=
  if process_idx < h.histories.length then h
  else { h with histories := (h.histories ++
          List.replicate (process_idx + 1 - h.histories.length)
            (ProcessGroup.new h.history_max_points)) }

/-- `ProcessHistory::update_process_cpu`. -/
def update_process_cpu (h : PH2) (process_idx : ℕ) (cpu_usage : ℚ) : PH2 :=
  let h1 := h.ensure_process_exists process_idx
  { h1 with histories := (h1.histories.modify
      (fun g => { g with metrics := g.metrics.update_cpu cpu_usage }) process_idx) }

/-- `ProcessHistory::update_memory`. -/
def update_memory (h : PH2) (process_idx : ℕ) (memory_mb : ℚ) : PH2 :=
  let h1 := h.ensure_process_exists process_idx
  { h1 with histories := (h1.histories.modify
      (fun g => { g with metrics := g.metrics.update_memory memory_mb }) process_idx) }

/-- `ProcessHistory::update_child_cpu` (keyed by the owning process index,
then pid). -/
def update_child_cpu (h : PH2) (parent_idx : ℕ) (pid : ℕ) (cpu_usage : ℚ) : PH2 :=
  let h1 := h.ensure_process_exists parent_idx
  { h1 with histories := (h1.histories.modify
      (fun g => { g with child_histories :=
        (updateEntry g.child_histories pid (ProcessMetrics.new h.history_max_points)
          (fun m => m.update_cpu cpu_usage)) }) parent_idx) }

/-- `ProcessHistory::update_child_memory`. -/
def update_child_memory (h : PH2) (parent_idx : ℕ) (pid : ℕ) (memory_mb : ℚ) : PH2 :=
  let h1 := h.ensure_process_exists parent_idx
  { h1 with histories := (h1.histories.modify
      (fun g => { g with child_histories :=
        (updateEntry g.child_histories pid (ProcessMetrics.new h.history_max_points)
          (fun m => m.update_memory memory_mb)) }) parent_idx) }

/-- `ProcessHistory::get_process_cpu_history`. -/
def get_process_cpu_history (h : PH2) (idx : ℕ) : Option (List ℚ) :=
  (h.histories.get? idx).map (fun g => g.metrics.get_cpu_history)

/-- `ProcessHistory::get_child_cpu_history`. -/
def get_child_cpu_history (h : PH2) (parent_idx : ℕ) (pid : ℕ) : Option (List ℚ) :=
  ((h.histories.get? parent_idx).bind
    (fun g => lookupEntry g.child_histories pid)).map ProcessMetrics.get_cpu_history

/-- `ProcessHistory::clear_process` (src/metrics/process/history.rs lines
236-240): replaces only the group at `idx` with a fresh one. -/
def clear_process (h : PH2) (idx : ℕ) : PH2 :=
  if idx < h.histories.length then
    { h with histories := h.histories.set idx (ProcessGroup.new h.history_max_points) }
  else h

end PH2

/-- Modelled from the spec: the capacity-change reaction of the update path.
The revision of the metrics engine holding the `history_len` field that the
settings slider writes (src/components/settings/ui.rs lines 55-68) and
process_view reads is not under src/, so the rebuild itself is modelled from
the spec's words, §4.3: "if the group's configured capacity differs from what
the store was built with, the whole store is rebuilt empty (not migrated)". -/
def reconfigure_store (h : PH2) (configured : ℕ) : PH2 :=
  if h.history_max_points = configured then h else PH2.new configured

/-! ## ProcessIdentifier parsing (src/process/mod.rs lines 13-31, identical
code in src/metrics/process/mod.rs lines 46-64) -/

/-- Decimal rendering loop of `format!("pid:{}", pid)`: fuel-driven
most-significant-first digit emission (the fuel `n + 1` always suffices). -/
def toDecimalAux : ℕ → ℕ → List Char → List Char
  | 0, _, acc => acc
  | fuel + 1, n, acc =>
    let d := Char.ofNat (48 + n % 10)
    if n < 10 then d :: acc else toDecimalAux fuel (n / 10) (d :: acc)

/-- The decimal digit string of a natural number, as `Display` prints a
`usize`. -/
def natToChars (n : ℕ) : List Char := toDecimalAux (n + 1) n []

/-- The optional leading plus sign accepted by `str::parse::<usize>()`. -/
def stripPlus (s : List Char) : List Char :=
  match s with
  | c :: rest => if c = '+' then rest else s
  | [] => s

/-- `str::parse::<usize>()` on a 64-bit target: an optional leading plus
sign, then one or more ASCII digits, error on overflow past `2^64 - 1`. -/
def parse_usize (s : List Char) : Option ℕ :=
  if (stripPlus s).isEmpty then none
  else if (stripPlus s).all (fun ch => ch.isDigit) then
    if (stripPlus s).foldl (fun acc ch => 10 * acc + (ch.toNat - 48)) 0 < 2 ^ 64 then
      some ((stripPlus s).foldl (fun acc ch => 10 * acc + (ch.toNat - 48)) 0)
    else none
  else none

/-- `ProcessIdentifier`: a process name or a pid. -/
inductive ProcessIdentifier where
  | Name : String → ProcessIdentifier
  | Pid : ℕ → ProcessIdentifier
  deriving Repr, DecidableEq

/-- `impl From<&str> for ProcessIdentifier`: strings starting with `pid:`
whose remainder parses as a `usize` become `Pid`, everything else `Name`. -/
def ProcessIdentifier.from_str (s : String) : ProcessIdentifier :=
  if s.toList.take 4 = ['p', 'i', 'd', ':'] then
    match parse_usize (s.toList.drop 4) with
    | some v => ProcessIdentifier.Pid v
    | none => ProcessIdentifier.Name s
  else ProcessIdentifier.Name s

/-- `impl ToString for ProcessIdentifier`. -/
def ProcessIdentifier.to_string : ProcessIdentifier → String
  | ProcessIdentifier.Name n => n
  | ProcessIdentifier.Pid p => String.mk (['p', 'i', 'd', ':'] ++ natToChars p)

/-! ## The monitor (src/process/monitor.rs) -/

/-- One row of the system snapshot (`sysinfo::Process`), with the fields the
monitor reads: `thread_kind` stands for `thread_kind().is_some()`, `memory`
is in bytes. -/
structure SysProcess where
  pid : ℕ
  parent : Option ℕ
  name : String
  cpu_usage : ℚ
  memory : ℕ
  thread_kind : Bool
  deriving Repr, DecidableEq

/-- `ProcessInfo` (src/process/mod.rs). -/
structure ProcessInfo where
  name : String
  pid : ℕ
  parent_pid : Option ℕ
  cpu_usage : ℚ
  memory_mb : ℚ
  is_thread : Bool
  deriving Repr, DecidableEq

/-- `ProcessMonitor::collect_process_info` (src/process/monitor.rs lines
145-168): zeroes a thread's memory and tags its name. -/
def collect_process_info (p : SysProcess) : ProcessInfo :=
  let is_thread := p.thread_kind
  { name := if is_thread then p.name ++ " (thread)" else p.name
    pid := p.pid
    parent_pid := p.parent
    cpu_usage := p.cpu_usage
    memory_mb := if is_thread then 0 else (p.memory : ℚ) / 1024 / 1024
    is_thread := is_thread }

/-- The pid set of a snapshot. -/
def pidsOf (l : List SysProcess) : Finset ℕ := (l.map SysProcess.pid).toFinset

/-- One pass of the `collect_child_pids` loop over the snapshot rows in
`rest`: a row whose parent is in `parent_pids` and whose pid is unseen is
marked seen, emitted, and expanded through `deeper` (the recursive call on
the full snapshot). -/
def collectStep (deeper : List ℕ → Finset ℕ → List ℕ × Finset ℕ) :
    List SysProcess → List ℕ → Finset ℕ → List ℕ × Finset ℕ
  | [], _, seen => ([], seen)
  | r :: rest, parent_pids, seen =>
    match r.parent with
    | none => collectStep deeper rest parent_pids seen
    | some pp =>
      if pp ∈ parent_pids ∧ r.pid ∉ seen then
        let res1 := deeper [r.pid] (insert r.pid seen)
        let res2 := collectStep deeper rest parent_pids res1.2
        (r.pid :: (res1.1 ++ res2.1), res2.2)
      else
        collectStep deeper rest parent_pids seen

/-- `collect_child_pids` with an explicit recursion-depth budget. The source
recursion terminates because every recursive call first inserts a fresh pid
into `seen_pids`; `snap.length + 1` therefore always over-approximates the
depth (proved in `collectFuel_stable`). -/
def collectFuel (snap : List SysProcess) : ℕ → List ℕ → Finset ℕ → List ℕ × Finset ℕ
  | 0, _, seen => ([], seen)
  | fuel + 1, parent_pids, seen => collectStep (collectFuel snap fuel) snap parent_pids seen

/-- `ProcessMonitor::collect_child_pids` (src/process/monitor.rs lines
170-189): scan the snapshot for unseen children of `parent_pids`, descending
recursively. Returns the found pids in discovery order and the final seen
set. -/
def collect_child_pids (snap : List SysProcess) (parent_pids : List ℕ)
    (seen_pids : Finset ℕ) : List ℕ × Finset ℕ :=
  collectFuel snap (snap.length + 1) parent_pids seen_pids

/-- The bundle of structural facts threaded through the fuel induction over
`collectFuel`: the seen set only grows, the final seen set is the initial one
plus exactly the emitted pids, the emitted pids are duplicate-free and were
all unseen. -/
def GoodCollector (d : List ℕ → Finset ℕ → List ℕ × Finset ℕ) : Prop :=
  (∀ ps s, s ⊆ (d ps s).2) ∧
  (∀ ps s, (d ps s).2 = s ∪ (d ps s).1.toFinset) ∧
  (∀ ps s, (d ps s).1.Nodup ∧ ∀ q ∈ (d ps s).1, q ∉ s)

/-- The spec's four-process example snapshot: `A(pid=1,parent=None)`,
`B(pid=2,parent=1)`, `C(pid=3,parent=2)`, `D(pid=4,parent=None)`. -/
def demoSnap : List SysProcess :=
  [{ pid := 1, parent := none, name := "A", cpu_usage := 0, memory := 0, thread_kind := false },
   { pid := 2, parent := some 1, name := "B", cpu_usage := 0, memory := 0, thread_kind := false },
   { pid := 3, parent := some 2, name := "C", cpu_usage := 0, memory := 0, thread_kind := false },
   { pid := 4, parent := none, name := "D", cpu_usage := 0, memory := 0, thread_kind := false }]

/-- Child-link relation read off a snapshot: `b`'s row lists `a` as parent. -/
def IsChildOf (snap : List SysProcess) (a b : ℕ) : Prop :=
  ∃ r ∈ snap, r.pid = b ∧ r.parent = some a

/-- Transitive reachability along child links. -/
def Reaches (snap : List SysProcess) : ℕ → ℕ → Prop :=
  Relation.ReflTransGen (IsChildOf snap)

/-- Folding one child pid into the accumulated `(all_processes, thread_count)`
pair, as the child loops of `collect_processes` do. -/
def addChild (snap : List SysProcess) (acc : List ProcessInfo × ℕ) (cpid : ℕ) :
    List ProcessInfo × ℕ :=
  match snap.find? (fun r => r.pid = cpid) with
  | some cp =>
      let cinfo := collect_process_info cp
      if cinfo.is_thread then (acc.1, acc.2 + 1) else (acc.1 ++ [cinfo], acc.2)
  | none => acc

/-- `ProcessMonitor::collect_processes` (src/process/monitor.rs lines
65-143): resolve an identifier to the non-thread member infos plus the
thread count, `none` when the pid is absent or no process has the name. -/
def collect_processes (snap : List SysProcess) (ident : ProcessIdentifier) :
    Option (List ProcessInfo × ℕ) :=
  match ident with
  | ProcessIdentifier.Pid pid =>
      match snap.find? (fun r => r.pid = pid) with
      | none => none
      | some proc =>
          let info := collect_process_info proc
          let start : List ProcessInfo × ℕ := if info.is_thread then ([], 1) else ([info], 0)
          let child_pids := (collect_child_pids snap [pid] (insert pid ∅)).1
          some (child_pids.foldl (addChild snap) start)
  | ProcessIdentifier.Name name =>
      let parent_pids := (snap.filter (fun r => r.name = name)).map SysProcess.pid
      if parent_pids.isEmpty then none
      else
        let start := parent_pids.foldl (addChild snap) ([], 0)
        let seen := parent_pids.foldl (fun s pid => insert pid s) ∅
        let child_pids := (collect_child_pids snap parent_pids seen).1
        some (child_pids.foldl (addChild snap) start)

/-- `ProcessMonitor::calculate_stats`: fold of `(cpu + p.cpu_usage,
mem + p.memory_mb)` over the member infos. -/
def calculate_stats (processes : List ProcessInfo) : ℚ × ℚ :=
  processes.foldl (fun acc p => (acc.1 + p.cpu_usage, acc.2 + p.memory_mb)) (0, 0)

/-- The member pid set the `Pid` branch of `collect_processes` resolves:
the target itself plus `collect_child_pids` from it (in discovery order). -/
def resolve_pid_members (snap : List SysProcess) (pid : ℕ) : Option (List ℕ) :=
  match snap.find? (fun r => r.pid = pid) with
  | none => none
  | some _ => some (pid :: (collect_child_pids snap [pid] (insert pid ∅)).1)

/-! ## The background worker of `Metrics::new` (src/metrics/mod.rs lines
75-198), per-identifier aggregation -/

/-- `ProcessStats` (src/process/mod.rs lines 67-76). -/
structure ProcessStats where
  current_cpu : ℚ
  avg_cpu : ℚ
  peak_cpu : ℚ
  memory_mb : ℚ
  peak_memory_mb : ℚ
  processes : List ProcessInfo
  thread_count : ℕ
  deriving Repr, DecidableEq

/-- The worker's identifier match (src/metrics/mod.rs lines 93-109):
`pid:`-prefixed identifiers match the single pid row, others match by exact
name equality. -/
def worker_matched (snap : List SysProcess) (identifier : String) : List SysProcess :=
  if identifier.toList.take 4 = ['p', 'i', 'd', ':'] then
    match parse_usize (identifier.toList.drop 4) with
    | some p => (snap.find? (fun r => r.pid = p)).toList
    | none => []
  else snap.filter (fun r => r.name = identifier)

/-- The worker's per-process info (src/metrics/mod.rs lines 125-132): memory
zeroed for threads, name untagged. -/
def worker_info (p : SysProcess) : ProcessInfo :=
  let is_thread := p.thread_kind
  { name := p.name
    pid := p.pid
    parent_pid := p.parent
    cpu_usage := p.cpu_usage
    memory_mb := if is_thread then 0 else (p.memory : ℚ) / 1024 / 1024
    is_thread := is_thread }

/-- The worker's per-identifier stats (src/metrics/mod.rs lines 111-146):
`total_cpu` and `total_memory` are summed over every matched row — including
rows whose `thread_kind` is set — before the per-info thread zeroing is
applied; no update is recorded when nothing matched. -/
def worker_stats (snap : List SysProcess) (identifier : String) : Option ProcessStats :=
  let procs := worker_matched snap identifier
  if procs.isEmpty then none
  else
    let total_cpu := (procs.map SysProcess.cpu_usage).sum
    let total_memory := (procs.map (fun p => (p.memory : ℚ) / 1024 / 1024)).sum
    let thread_count := (procs.filter (fun p => p.thread_kind)).length
    some
      { current_cpu := total_cpu
        avg_cpu := total_cpu
        peak_cpu := total_cpu
        memory_mb := total_memory
        peak_memory_mb := total_memory
        processes := procs.map worker_info
        thread_count := thread_count }

theorem lastWindow_length (xs : List ℚ) (c : ℕ) :
    (lastWindow xs c).length = min xs.length c := by
  simp [lastWindow]
  omega

theorem lastWindow_append_one_of_lt (xs : List ℚ) (x : ℚ) (c : ℕ)
    (h : xs.length < c) : lastWindow (xs ++ [x]) c = xs ++ [x] := by
  have : xs.length + 1 - c = 0 := by omega
  simp [lastWindow, this]

theorem lastWindow_append_one_of_le (xs : List ℚ) (x : ℚ) (c : ℕ)
    (hc : 1 ≤ c) (h : c ≤ xs.length) :
    lastWindow (xs ++ [x]) c = (lastWindow xs c).drop 1 ++ [x] := by
  simp only [lastWindow, List.length_append, List.length_cons, List.length_nil]
  rw [List.drop_append_of_le_length (by omega), List.drop_drop]
  congr 2
  omega

theorem lastWindow_of_le (xs : List ℚ) (c : ℕ) (h : xs.length ≤ c) :
    lastWindow xs c = xs := by
  have : xs.length - c = 0 := by omega
  simp [lastWindow, this]

/-- Rotating the backing array one step after overwriting the cursor slot:
the chronological view drops its oldest element and gains the new value at
the end. -/
theorem rot_set (l : List ℚ) (pos : ℕ) (x : ℚ) (hp : pos < l.length) :
    (l.set pos x).drop ((pos + 1) % l.length) ++ (l.set pos x).take ((pos + 1) % l.length)
      = ((l.drop pos ++ l.take pos).drop 1) ++ [x] := by
  have hset : l.set pos x = l.take pos ++ x :: l.drop (pos + 1) := by
    rw [List.set_eq_take_append_cons_drop]
    simp [hp]
  have hdrop1 : (l.drop pos ++ l.take pos).drop 1 = l.drop (pos + 1) ++ l.take pos := by
    rw [List.drop_append_of_le_length (by simp; omega), List.drop_drop]
  rcases Nat.lt_or_ge (pos + 1) l.length with hlt | hge
  · have hmod : (pos + 1) % l.length = pos + 1 := Nat.mod_eq_of_lt hlt
    rw [hmod, hset, hdrop1]
    rw [List.drop_append_eq_append_drop, List.take_append_eq_append_take]
    have hlt' : pos < l.length := hp
    have hlen : (l.take pos).length = pos := by simp; omega
    rw [hlen]
    have h1 : (l.take pos).drop (pos + 1) = [] := by
      apply List.drop_eq_nil_of_le; omega
    have h2 : pos + 1 - pos = 1 := by omega
    rw [h1, h2]
    simp
  · have heq : pos + 1 = l.length := by omega
    have hmod : (pos + 1) % l.length = 0 := by rw [heq, Nat.mod_self]
    rw [hmod, hset, hdrop1]
    have h1 : l.drop (pos + 1) = [] := by
      apply List.drop_eq_nil_of_le; omega
    simp [h1]

theorem bufInv_new (c : ℕ) : BufInv c [] (CircularBuffer.new c) := by
  refine ⟨by simp [CircularBuffer.new], by simp [CircularBuffer.new], ?_, ?_, ?_⟩
  · simp [CircularBuffer.new]
  · simp [CircularBuffer.new, lastWindow]
  · simp [CircularBuffer.new, lastWindow]

theorem bufInv_push (c : ℕ) (hc : 1 ≤ c) (xs : List ℚ) (x : ℚ)
    (b : CircularBuffer) (hb : BufInv c xs b) :
    BufInv c (xs ++ [x]) (b.push x) := by
  obtain ⟨hlen, hcount, hpos, hrot, hsum⟩ := hb
  have hposlt : b.position < b.data.length := by
    rw [hlen, hpos]; exact Nat.mod_lt _ (by omega)
  have hrotset := rot_set b.data b.position x hposlt
  rw [hlen] at hrotset
  have hfull : (b.len = b.data.length) ↔ c ≤ xs.length := by
    rw [hlen, hcount]; omega
  rcases Nat.lt_or_ge xs.length c with hlt | hge
  · -- buffer not yet full
    have hnotfull : ¬ b.len = b.data.length := by rw [hfull]; omega
    have hW : lastWindow xs c = xs := lastWindow_of_le xs c (by omega)
    have hW' : lastWindow (xs ++ [x]) c = xs ++ [x] :=
      lastWindow_append_one_of_lt xs x c hlt
    refine ⟨by simp [CircularBuffer.push, hlen], ?_, ?_, ?_, ?_⟩
    · simp only [CircularBuffer.push, if_neg hnotfull]
      rw [hcount]; simp; omega
    · simp only [CircularBuffer.push]
      rw [hlen, hpos, Nat.mod_add_mod]; simp
    · simp only [CircularBuffer.push]
      rw [hlen, hrotset, hrot, hW, hW']
      have hrep : (c - min xs.length c) = (c - xs.length) := by omega
      have hpos' : 1 ≤ c - xs.length := by omega
      rw [hrep, List.drop_append_of_le_length (by simp; omega)]
      have hdr : (List.replicate (c - xs.length) (0 : ℚ)).drop 1
          = List.replicate (c - (xs.length + 1)) 0 := by
        rw [List.drop_replicate]; congr 1
      rw [hdr]
      have hm : c - (xs ++ [x]).length ⊓ c = c - (xs.length + 1) := by
        simp; omega
      rw [hm]
      simp
    · simp only [CircularBuffer.push, if_neg hnotfull]
      rw [hsum, hW, hW']
      simp
  · -- buffer full: the oldest value is evicted
    have hisfull : b.len = b.data.length := by rw [hfull]; omega
    have hWlen : (lastWindow xs c).length = c := by
      rw [lastWindow_length]; omega
    have hW' : lastWindow (xs ++ [x]) c = (lastWindow xs c).drop 1 ++ [x] :=
      lastWindow_append_one_of_le xs x c hc hge
    have hhead : b.data.getD b.position 0 :: (lastWindow xs c).drop 1
        = lastWindow xs c := by
      have h1 : b.data.drop b.position
          = b.data.getD b.position 0 :: b.data.drop (b.position + 1) := by
        rw [List.getD_eq_getElem _ _ hposlt]
        exact List.drop_eq_getElem_cons hposlt
      have h2 : List.replicate (c - min xs.length c) (0 : ℚ) = [] := by
        have : c - min xs.length c = 0 := by omega
        simp [this]
      rw [h2] at hrot
      simp only [List.nil_append] at hrot
      have h3 : b.data.getD b.position 0 :: (b.data.drop (b.position + 1) ++ b.data.take b.position)
          = lastWindow xs c := by
        rw [← hrot, h1]; simp
      have h4 : (lastWindow xs c).drop 1
          = b.data.drop (b.position + 1) ++ b.data.take b.position := by
        rw [← h3]; simp
      rw [h4]; exact h3
    refine ⟨by simp [CircularBuffer.push, hlen], ?_, ?_, ?_, ?_⟩
    · simp only [CircularBuffer.push, if_pos hisfull]
      rw [hcount]; simp; omega
    · simp only [CircularBuffer.push]
      rw [hlen, hpos, Nat.mod_add_mod]; simp
    · simp only [CircularBuffer.push]
      rw [hlen, hrotset, hrot, hW']
      have h2 : c - min xs.length c = 0 := by omega
      have h2' : c - (xs ++ [x]).length ⊓ c = 0 := by simp; omega
      simp only [h2, h2', List.replicate_zero, List.nil_append]
    · simp only [CircularBuffer.push, if_pos hisfull]
      rw [hsum, hW']
      have hsplit := congrArg (List.sum) hhead
      simp only [List.sum_cons] at hsplit
      rw [← hsplit]
      simp

theorem bufInv_pushSeq (c : ℕ) (hc : 1 ≤ c) (xs : List ℚ) :
    BufInv c xs (CircularBuffer.pushSeq (CircularBuffer.new c) xs) := by
  induction xs using List.reverseRecOn with
  | nil => exact bufInv_new c
  | append_singleton ys y ih =>
      have : CircularBuffer.pushSeq (CircularBuffer.new c) (ys ++ [y])
          = (CircularBuffer.pushSeq (CircularBuffer.new c) ys).push y := by
        simp [CircularBuffer.pushSeq]
      rw [this]
      exact bufInv_push c hc ys y _ ih

/-- Claim C8: for every capacity `c ≥ 1` and every push sequence, the running
sum equals the sum of the retained window and `average()` equals the exact
arithmetic mean of the last `min (number of pushes) c` pushed values, with
`0` (not a division failure) when nothing has been pushed. -/
theorem average_is_window_mean (c : ℕ) (hc : 1 ≤ c) (xs : List ℚ) :
    (CircularBuffer.pushSeq (CircularBuffer.new c) xs).sum = (lastWindow xs c).sum ∧
    (CircularBuffer.pushSeq (CircularBuffer.new c) xs).average
      = (if (lastWindow xs c).length = 0 then 0
         else (lastWindow xs c).sum / ((lastWindow xs c).length : ℚ)) ∧
    (CircularBuffer.new c).average = 0 := by
  obtain ⟨hlen, hcount, hpos, hrot, hsum⟩ := bufInv_pushSeq c hc xs
  refine ⟨hsum, ?_, by simp [CircularBuffer.new, CircularBuffer.average]⟩
  unfold CircularBuffer.average
  rw [hcount, hsum, lastWindow_length]

/-- Witness for C8: capacity 2, pushes `[1, 2, 3]` — the window is `[2, 3]`
and the average is `5/2`. -/
theorem average_is_window_mean_witness :
    (CircularBuffer.pushSeq (CircularBuffer.new 2) [1, 2, 3]).average = 5 / 2 := by
  rw [(average_is_window_mean 2 (by decide) [1, 2, 3]).2.1]
  norm_num [lastWindow]

/-- Counterexample to claim C2 as stated: with capacity 3 and a single push
of `7`, `as_slice()` does not return the one pushed value — it returns all
three backing slots, the two unfilled ones padding the front with `0`. -/
theorem as_slice_counterexample :
    (CircularBuffer.pushSeq (CircularBuffer.new 3) [7]).as_slice = [0, 0, 7] ∧
    (CircularBuffer.pushSeq (CircularBuffer.new 3) [7]).as_slice ≠ [7] := by
  norm_num [CircularBuffer.pushSeq, CircularBuffer.push, CircularBuffer.new,
    CircularBuffer.as_slice, CircularBuffer.as_slices, List.foldl, List.replicate]

/-- Claim C2 amended: for capacity `c ≥ 1` and any push sequence,
`as_slice()` always returns exactly `c` values: `c - min n c` zero-padding
values for the unfilled slots first, then the last `min n c` pushed values in
push order (so once `n ≥ c` it is exactly the claimed window). -/
theorem as_slice_padded_window (c : ℕ) (hc : 1 ≤ c) (xs : List ℚ) :
    (CircularBuffer.pushSeq (CircularBuffer.new c) xs).as_slice
      = List.replicate (c - min xs.length c) 0 ++ lastWindow xs c ∧
    (CircularBuffer.pushSeq (CircularBuffer.new c) xs).as_slice.length = c := by
  obtain ⟨hlen, hcount, hpos, hrot, hsum⟩ := bufInv_pushSeq c hc xs
  constructor
  · unfold CircularBuffer.as_slice CircularBuffer.as_slices
    exact hrot
  · unfold CircularBuffer.as_slice CircularBuffer.as_slices
    have hposle : (CircularBuffer.pushSeq (CircularBuffer.new c) xs).position ≤ c := by
      rw [hpos]; exact le_of_lt (Nat.mod_lt _ (by omega))
    simp [hlen]
    omega

/-- Witness for the amended C2: capacity 2, pushes `[1, 2, 3]` — `as_slice()`
returns `[2, 3]`, the last two pushes in order with no padding. -/
theorem as_slice_padded_window_witness :
    (CircularBuffer.pushSeq (CircularBuffer.new 2) [1, 2, 3]).as_slice = [2, 3] := by
  rw [(as_slice_padded_window 2 (by decide) [1, 2, 3]).1]
  norm_num [lastWindow, List.replicate]

/-- Claim C1 is violated by the code (evaluation at the failing input):
with capacity 2 and the non-negative pushes `[5, 3, 4]`, the retained window
is `[3, 4]` with maximum `4`, yet `max_value()` still reports the evicted
`5` — the rescan fallback compares the cached peak against the slot at the
advanced cursor (the oldest surviving value) instead of the value that was
just evicted, so it does not fire when the evicted slot held the peak. -/
theorem max_value_stale_at_failing_input :
    (CircularBuffer.pushSeq (CircularBuffer.new 2) [5, 3, 4]).max_value = 5 ∧
    (CircularBuffer.pushSeq (CircularBuffer.new 2) [5, 3, 4]).as_slice = [3, 4] ∧
    lastWindow [5, 3, 4] 2 = [3, 4] ∧
    (lastWindow [5, 3, 4] 2).foldl max 0 = 4 := by
  norm_num [CircularBuffer.pushSeq, CircularBuffer.push, CircularBuffer.new,
    CircularBuffer.as_slice, CircularBuffer.as_slices, CircularBuffer.max_value,
    lastWindow, List.foldl, List.replicate]

/-! ## Structural lemmas for the child-pid collector -/

theorem collectStep_mono (d : List ℕ → Finset ℕ → List ℕ × Finset ℕ)
    (hd : ∀ ps s, s ⊆ (d ps s).2) :
    ∀ (rest : List SysProcess) (ps : List ℕ) (seen : Finset ℕ),
      seen ⊆ (collectStep d rest ps seen).2 := by
  intro rest
  induction rest with
  | nil => intro ps seen; simp [collectStep]
  | cons r rest ih =>
      intro ps seen
      cases hpar : r.parent with
      | none => simpa [collectStep, hpar] using ih ps seen
      | some pp =>
          by_cases hcond : pp ∈ ps ∧ r.pid ∉ seen
          · simp only [collectStep, hpar, if_pos hcond]
            refine Finset.Subset.trans ?_ (ih ps _)
            refine Finset.Subset.trans ?_ (hd [r.pid] (insert r.pid seen))
            exact Finset.subset_insert _ _
          · simp only [collectStep, hpar, if_neg hcond]
            exact ih ps seen

theorem collectStep_seen_eq (d : List ℕ → Finset ℕ → List ℕ × Finset ℕ)
    (hd : ∀ ps s, (d ps s).2 = s ∪ (d ps s).1.toFinset) :
    ∀ (rest : List SysProcess) (ps : List ℕ) (seen : Finset ℕ),
      (collectStep d rest ps seen).2
        = seen ∪ (collectStep d rest ps seen).1.toFinset := by
  intro rest
  induction rest with
  | nil => intro ps seen; simp [collectStep]
  | cons r rest ih =>
      intro ps seen
      cases hpar : r.parent with
      | none => simpa [collectStep, hpar] using ih ps seen
      | some pp =>
          by_cases hcond : pp ∈ ps ∧ r.pid ∉ seen
          · simp only [collectStep, hpar, if_pos hcond]
            rw [ih ps (d [r.pid] (insert r.pid seen)).2, hd [r.pid] (insert r.pid seen)]
            ext a
            simp
          · simp only [collectStep, hpar, if_neg hcond]
            exact ih ps seen

theorem collectStep_nodup (d : List ℕ → Finset ℕ → List ℕ × Finset ℕ)
    (hd : GoodCollector d) :
    ∀ (rest : List SysProcess) (ps : List ℕ) (seen : Finset ℕ),
      (collectStep d rest ps seen).1.Nodup ∧
      ∀ q ∈ (collectStep d rest ps seen).1, q ∉ seen := by
  obtain ⟨hmono, hset, hnd⟩ := hd
  intro rest
  induction rest with
  | nil => intro ps seen; simp [collectStep]
  | cons r rest ih =>
      intro ps seen
      cases hpar : r.parent with
      | none => simpa [collectStep, hpar] using ih ps seen
      | some pp =>
          by_cases hcond : pp ∈ ps ∧ r.pid ∉ seen
          · simp only [collectStep, hpar, if_pos hcond]
            set s1 := insert r.pid seen with hs1
            set res1 := d [r.pid] s1 with hres1
            set res2 := collectStep d rest ps res1.2 with hres2
            have h1nd : res1.1.Nodup := (hnd [r.pid] s1).1
            have h1dis : ∀ q ∈ res1.1, q ∉ s1 := (hnd [r.pid] s1).2
            have h2nd : res2.1.Nodup := (ih ps res1.2).1
            have h2dis : ∀ q ∈ res2.1, q ∉ res1.2 := (ih ps res1.2).2
            have hs1sub : s1 ⊆ res1.2 := hmono [r.pid] s1
            have h1sub : ∀ q ∈ res1.1, q ∈ res1.2 := by
              intro q hq
              rw [hset [r.pid] s1]
              simp [hq]
            constructor
            · simp only [List.nodup_cons, List.nodup_append]
              refine ⟨?_, h1nd, h2nd, ?_⟩
              · simp only [List.mem_append]
                rintro (hq | hq)
                · exact h1dis r.pid hq (Finset.mem_insert_self _ _)
                · exact h2dis r.pid hq (hs1sub (Finset.mem_insert_self _ _))
              · intro a ha hb
                exact h2dis a hb (h1sub a ha)
            · intro q hq
              simp only [List.mem_cons, List.mem_append] at hq
              rcases hq with rfl | hq | hq
              · exact hcond.2
              · intro hqs
                exact h1dis q hq (Finset.mem_insert_of_mem hqs)
              · intro hqs
                exact h2dis q hq (hs1sub (Finset.mem_insert_of_mem hqs))
          · simp only [collectStep, hpar, if_neg hcond]
            exact ih ps seen

theorem collectFuel_good (snap : List SysProcess) :
    ∀ fuel, GoodCollector (collectFuel snap fuel) := by
  intro fuel
  induction fuel with
  | zero =>
      refine ⟨?_, ?_, ?_⟩ <;> intro ps s <;> simp [collectFuel]
  | succ f ih =>
      refine ⟨?_, ?_, ?_⟩
      · intro ps s
        exact collectStep_mono _ ih.1 snap ps s
      · intro ps s
        exact collectStep_seen_eq _ ih.2.1 snap ps s
      · intro ps s
        exact collectStep_nodup _ ih snap ps s

theorem collectStep_sound (snap : List SysProcess)
    (d : List ℕ → Finset ℕ → List ℕ × Finset ℕ)
    (hd : ∀ ps s q, q ∈ (d ps s).1 → ∃ a ∈ ps, Reaches snap a q) :
    ∀ (rest : List SysProcess) (ps : List ℕ) (seen : Finset ℕ),
      (∀ r ∈ rest, r ∈ snap) →
      ∀ q, q ∈ (collectStep d rest ps seen).1 → ∃ a ∈ ps, Reaches snap a q := by
  intro rest
  induction rest with
  | nil => intro ps seen _ q hq; simp [collectStep] at hq
  | cons r rest ih =>
      intro ps seen hrest q hq
      have hr : r ∈ snap := hrest r (by simp)
      have hrest2 : ∀ x ∈ rest, x ∈ snap := fun x hx => hrest x (by simp [hx])
      cases hpar : r.parent with
      | none =>
          simp only [collectStep, hpar] at hq
          exact ih ps seen hrest2 q hq
      | some pp =>
          by_cases hcond : pp ∈ ps ∧ r.pid ∉ seen
          · simp only [collectStep, hpar, if_pos hcond] at hq
            have hstep : Reaches snap pp r.pid :=
              Relation.ReflTransGen.single ⟨r, hr, rfl, hpar⟩
            simp only [List.mem_cons, List.mem_append] at hq
            rcases hq with rfl | hq | hq
            · exact ⟨pp, hcond.1, hstep⟩
            · obtain ⟨a, ha, hreach⟩ := hd [r.pid] (insert r.pid seen) q hq
              simp only [List.mem_singleton] at ha
              subst ha
              exact ⟨pp, hcond.1, hstep.trans hreach⟩
            · exact ih ps _ hrest2 q hq
          · simp only [collectStep, hpar, if_neg hcond] at hq
            exact ih ps seen hrest2 q hq

theorem collectFuel_sound (snap : List SysProcess) :
    ∀ fuel (ps : List ℕ) (seen : Finset ℕ) q,
      q ∈ (collectFuel snap fuel ps seen).1 → ∃ a ∈ ps, Reaches snap a q := by
  intro fuel
  induction fuel with
  | zero => intro ps seen q hq; simp [collectFuel] at hq
  | succ f ih =>
      intro ps seen q hq
      exact collectStep_sound snap _ ih snap ps seen (fun r hr => hr) q hq

theorem collectStep_closed (snap : List SysProcess) (f : ℕ)
    (d : List ℕ → Finset ℕ → List ℕ × Finset ℕ)
    (hmono : ∀ ps s, s ⊆ (d ps s).2)
    (hcl : ∀ (ps : List ℕ) (s : Finset ℕ), (pidsOf snap \ s).card < f →
      (∀ r ∈ snap, ∀ pp, r.parent = some pp → pp ∈ ps → r.pid ∈ (d ps s).2) ∧
      (∀ r ∈ snap, ∀ pp, r.parent = some pp → pp ∈ (d ps s).2 → pp ∉ s →
        r.pid ∈ (d ps s).2)) :
    ∀ (rest : List SysProcess) (ps : List ℕ) (seen : Finset ℕ),
      (∀ r ∈ rest, r ∈ snap) → (pidsOf snap \ seen).card < f + 1 →
      (∀ r ∈ rest, ∀ pp, r.parent = some pp → pp ∈ ps →
        r.pid ∈ (collectStep d rest ps seen).2) ∧
      (∀ r ∈ snap, ∀ pp, r.parent = some pp →
        pp ∈ (collectStep d rest ps seen).2 → pp ∉ seen →
        r.pid ∈ (collectStep d rest ps seen).2) := by
  intro rest
  induction rest with
  | nil =>
      intro ps seen _ _
      constructor
      · intro r hr; simp at hr
      · intro r hr pp hpar hmem hnot
        simp only [collectStep] at hmem ⊢
        exact absurd hmem hnot
  | cons r rest ih =>
      intro ps seen hrest hb
      have hr : r ∈ snap := hrest r (by simp)
      have hrest2 : ∀ x ∈ rest, x ∈ snap := fun x hx => hrest x (by simp [hx])
      cases hpar : r.parent with
      | none =>
          have := ih ps seen hrest2 hb
          constructor
          · intro x hx pp hpx hpps
            simp only [List.mem_cons] at hx
            rcases hx with rfl | hx
            · rw [hpar] at hpx; exact absurd hpx (by simp)
            · simpa [collectStep, hpar] using this.1 x hx pp hpx hpps
          · intro x hx pp hpx hmem hnot
            simp only [collectStep, hpar] at hmem ⊢
            exact this.2 x hx pp hpx hmem hnot
      | some pp0 =>
          by_cases hcond : pp0 ∈ ps ∧ r.pid ∉ seen
          · -- the row is expanded
            have hpidmem : r.pid ∈ pidsOf snap \ seen := by
              simp only [Finset.mem_sdiff]
              exact ⟨by simp [pidsOf]; exact ⟨r, hr, rfl⟩, hcond.2⟩
            have hb1 : (pidsOf snap \ insert r.pid seen).card < f := by
              have : pidsOf snap \ insert r.pid seen
                  = (pidsOf snap \ seen).erase r.pid := by
                ext a; simp [Finset.mem_sdiff]; tauto
              rw [this, Finset.card_erase_of_mem hpidmem]
              have hpos : 0 < (pidsOf snap \ seen).card :=
                Finset.card_pos.mpr ⟨_, hpidmem⟩
              omega
            have hA := hcl [r.pid] (insert r.pid seen) hb1
            have hmono1 : insert r.pid seen ⊆ (d [r.pid] (insert r.pid seen)).2 :=
              hmono [r.pid] (insert r.pid seen)
            have hb2 : (pidsOf snap \ (d [r.pid] (insert r.pid seen)).2).card < f + 1 := by
              have hsub : pidsOf snap \ (d [r.pid] (insert r.pid seen)).2
                  ⊆ pidsOf snap \ insert r.pid seen :=
                Finset.sdiff_subset_sdiff (Finset.Subset.refl _) hmono1
              have := Finset.card_le_card hsub
              omega
            have hI := ih ps (d [r.pid] (insert r.pid seen)).2 hrest2 hb2
            have hstepmono : (d [r.pid] (insert r.pid seen)).2
                ⊆ (collectStep d rest ps (d [r.pid] (insert r.pid seen)).2).2 :=
              collectStep_mono d hmono rest ps _
            have hout : (collectStep d (r :: rest) ps seen).2
                = (collectStep d rest ps (d [r.pid] (insert r.pid seen)).2).2 := by
              simp only [collectStep, hpar, if_pos hcond]
            constructor
            · intro x hx pp hpx hpps
              rw [hout]
              simp only [List.mem_cons] at hx
              rcases hx with rfl | hx
              · -- x = r: its pid is in the seen set already
                exact hstepmono (hmono1 (Finset.mem_insert_self _ _))
              · exact hI.1 x hx pp hpx hpps
            · intro x hx pp hpx hmem hnot
              rw [hout] at hmem ⊢
              by_cases hin1 : pp ∈ (d [r.pid] (insert r.pid seen)).2
              · -- pp was present after the deep call
                by_cases hppr : pp = r.pid
                · subst hppr
                  exact hstepmono (hA.1 x hx _ hpx (by simp))
                · have hnotin : pp ∉ insert r.pid seen := by
                    simp only [Finset.mem_insert]
                    tauto
                  exact hstepmono (hA.2 x hx pp hpx hin1 hnotin)
              · exact hI.2 x hx pp hpx hmem hin1
          · have hout : (collectStep d (r :: rest) ps seen).2
                = (collectStep d rest ps seen).2 := by
              simp only [collectStep, hpar, if_neg hcond]
            have hI := ih ps seen hrest2 hb
            constructor
            · intro x hx pp hpx hpps
              rw [hout]
              simp only [List.mem_cons] at hx
              rcases hx with rfl | hx
              · -- x = r but the row was not expanded: pp ∈ ps forces r.pid ∈ seen
                rw [hpar] at hpx
                have hppe : pp0 = pp := Option.some.inj hpx
                subst hppe
                have hseen : x.pid ∈ seen := by
                  by_cases hsn : x.pid ∈ seen
                  · exact hsn
                  · exact absurd ⟨hpps, hsn⟩ hcond
                exact collectStep_mono d hmono rest ps seen hseen
              · exact hI.1 x hx pp hpx hpps
            · intro x hx pp hpx hmem hnot
              rw [hout] at hmem ⊢
              exact hI.2 x hx pp hpx hmem hnot

theorem collectFuel_closed (snap : List SysProcess) :
    ∀ (fuel : ℕ) (ps : List ℕ) (seen : Finset ℕ),
      (pidsOf snap \ seen).card < fuel →
      (∀ r ∈ snap, ∀ pp, r.parent = some pp → pp ∈ ps →
        r.pid ∈ (collectFuel snap fuel ps seen).2) ∧
      (∀ r ∈ snap, ∀ pp, r.parent = some pp →
        pp ∈ (collectFuel snap fuel ps seen).2 → pp ∉ seen →
        r.pid ∈ (collectFuel snap fuel ps seen).2) := by
  intro fuel
  induction fuel with
  | zero => intro ps seen hb; omega
  | succ f ih =>
      intro ps seen hb
      exact collectStep_closed snap f (collectFuel snap f)
        (collectFuel_good snap f).1 ih snap ps seen (fun r hr => hr) hb

theorem collectStep_congr (snap : List SysProcess) (B : ℕ)
    (d1 d2 : List ℕ → Finset ℕ → List ℕ × Finset ℕ)
    (hmono : ∀ ps s, s ⊆ (d1 ps s).2)
    (hagree : ∀ ps s, (pidsOf snap \ s).card + 1 < B → d1 ps s = d2 ps s) :
    ∀ (rest : List SysProcess) (ps : List ℕ) (seen : Finset ℕ),
      (∀ r ∈ rest, r ∈ snap) → (pidsOf snap \ seen).card < B →
      collectStep d1 rest ps seen = collectStep d2 rest ps seen := by
  intro rest
  induction rest with
  | nil => intro ps seen _ _; simp [collectStep]
  | cons r rest ih =>
      intro ps seen hrest hb
      have hr : r ∈ snap := hrest r (by simp)
      have hrest2 : ∀ x ∈ rest, x ∈ snap := fun x hx => hrest x (by simp [hx])
      cases hpar : r.parent with
      | none =>
          simp only [collectStep, hpar]
          exact ih ps seen hrest2 hb
      | some pp =>
          by_cases hcond : pp ∈ ps ∧ r.pid ∉ seen
          · have hpidmem : r.pid ∈ pidsOf snap \ seen := by
              simp only [Finset.mem_sdiff]
              exact ⟨by simp [pidsOf]; exact ⟨r, hr, rfl⟩, hcond.2⟩
            have hcards : (pidsOf snap \ insert r.pid seen).card + 1
                = (pidsOf snap \ seen).card := by
              have : pidsOf snap \ insert r.pid seen
                  = (pidsOf snap \ seen).erase r.pid := by
                ext a; simp [Finset.mem_sdiff]; tauto
              rw [this, Finset.card_erase_of_mem hpidmem]
              have : 0 < (pidsOf snap \ seen).card := Finset.card_pos.mpr ⟨_, hpidmem⟩
              omega
            have hd12 : d1 [r.pid] (insert r.pid seen) = d2 [r.pid] (insert r.pid seen) :=
              hagree [r.pid] (insert r.pid seen) (by omega)
            have hb2 : (pidsOf snap \ (d1 [r.pid] (insert r.pid seen)).2).card < B := by
              have hsub : pidsOf snap \ (d1 [r.pid] (insert r.pid seen)).2
                  ⊆ pidsOf snap \ insert r.pid seen :=
                Finset.sdiff_subset_sdiff (Finset.Subset.refl _)
                  (hmono [r.pid] (insert r.pid seen))
              have := Finset.card_le_card hsub
              omega
            simp only [collectStep, hpar, if_pos hcond]
            rw [ih ps (d1 [r.pid] (insert r.pid seen)).2 hrest2 hb2, hd12]
          · simp only [collectStep, hpar, if_neg hcond]
            exact ih ps seen hrest2 hb

theorem collectFuel_congr (snap : List SysProcess) :
    ∀ (f g : ℕ) (ps : List ℕ) (seen : Finset ℕ),
      (pidsOf snap \ seen).card < f → (pidsOf snap \ seen).card < g →
      collectFuel snap f ps seen = collectFuel snap g ps seen := by
  intro f
  induction f with
  | zero => intro g ps seen hf _; omega
  | succ f ih =>
      intro g ps seen hf hg
      cases g with
      | zero => omega
      | succ g =>
          show collectStep (collectFuel snap f) snap ps seen
            = collectStep (collectFuel snap g) snap ps seen
          refine collectStep_congr snap ((pidsOf snap \ seen).card + 1)
            (collectFuel snap f) (collectFuel snap g)
            (collectFuel_good snap f).1 ?_ snap ps seen (fun r hr => hr) (by omega)
          intro ps2 s2 hs2
          exact ih g ps2 s2 (by omega) (by omega)

theorem pids_card_le (snap : List SysProcess) (seen : Finset ℕ) :
    (pidsOf snap \ seen).card ≤ snap.length := by
  calc (pidsOf snap \ seen).card
      ≤ (pidsOf snap).card := Finset.card_le_card (Finset.sdiff_subset)
    _ ≤ (snap.map SysProcess.pid).length := List.toFinset_card_le _
    _ = snap.length := List.length_map _ _

/-- Claim C9: for every finite snapshot — cyclic parent links included —
the child collection stabilises (any fuel from `snap.length + 1` up computes
the same result, i.e. the recursion depth never exceeds the bound because the
visited set strictly grows before each descent), emits each pid at most once,
never re-emits an already-seen pid, and the final seen set is exactly the
initial one plus the emitted pids. -/
theorem collect_child_pids_terminates_visits_once
    (snap : List SysProcess) (parent_pids : List ℕ) (seen : Finset ℕ) (fuel : ℕ)
    (hfuel : snap.length + 1 ≤ fuel) :
    collectFuel snap fuel parent_pids seen
      = collect_child_pids snap parent_pids seen ∧
    (collect_child_pids snap parent_pids seen).1.Nodup ∧
    (∀ q ∈ (collect_child_pids snap parent_pids seen).1, q ∉ seen) ∧
    (collect_child_pids snap parent_pids seen).2
      = seen ∪ (collect_child_pids snap parent_pids seen).1.toFinset := by
  have hcard := pids_card_le snap seen
  refine ⟨?_, ?_, ?_, ?_⟩
  · exact collectFuel_congr snap fuel (snap.length + 1) parent_pids seen
      (by omega) (by omega)
  · exact ((collectFuel_good snap (snap.length + 1)).2.2 parent_pids seen).1
  · exact ((collectFuel_good snap (snap.length + 1)).2.2 parent_pids seen).2
  · exact (collectFuel_good snap (snap.length + 1)).2.1 parent_pids seen

/-- Witness for C9 at a pathological cyclic snapshot (pids 1 and 2 are each
other's parent): the collection stabilises and visits pid 2 exactly once. -/
theorem collect_child_pids_terminates_visits_once_witness :
    collectFuel
        [{ pid := 1, parent := some 2, name := "a", cpu_usage := 0, memory := 0,
           thread_kind := false },
         { pid := 2, parent := some 1, name := "b", cpu_usage := 0, memory := 0,
           thread_kind := false }] 7 [1] (insert 1 ∅)
      = collect_child_pids
          [{ pid := 1, parent := some 2, name := "a", cpu_usage := 0, memory := 0,
             thread_kind := false },
           { pid := 2, parent := some 1, name := "b", cpu_usage := 0, memory := 0,
             thread_kind := false }] [1] (insert 1 ∅) ∧
    (collect_child_pids
        [{ pid := 1, parent := some 2, name := "a", cpu_usage := 0, memory := 0,
           thread_kind := false },
         { pid := 2, parent := some 1, name := "b", cpu_usage := 0, memory := 0,
           thread_kind := false }] [1] (insert 1 ∅)).1.Nodup ∧
    (∀ q ∈ (collect_child_pids
        [{ pid := 1, parent := some 2, name := "a", cpu_usage := 0, memory := 0,
           thread_kind := false },
         { pid := 2, parent := some 1, name := "b", cpu_usage := 0, memory := 0,
           thread_kind := false }] [1] (insert 1 ∅)).1, q ∉ (insert 1 ∅ : Finset ℕ)) ∧
    (collect_child_pids
        [{ pid := 1, parent := some 2, name := "a", cpu_usage := 0, memory := 0,
           thread_kind := false },
         { pid := 2, parent := some 1, name := "b", cpu_usage := 0, memory := 0,
           thread_kind := false }] [1] (insert 1 ∅)).2
      = insert 1 ∅ ∪ (collect_child_pids
          [{ pid := 1, parent := some 2, name := "a", cpu_usage := 0, memory := 0,
             thread_kind := false },
           { pid := 2, parent := some 1, name := "b", cpu_usage := 0, memory := 0,
             thread_kind := false }] [1] (insert 1 ∅)).1.toFinset :=
  collect_child_pids_terminates_visits_once _ [1] (insert 1 ∅) 7 (by decide)

/-- Claim C4: for a `Pid p` target present in the snapshot, the resolved
member list contains exactly `p` plus the pids reachable from `p` along
child links; on the spec's four-process snapshot, resolving pid 1 yields
`[1, 2, 3]`, pid 4 yields `[4]` and pid 99 yields `none`. -/
theorem resolve_pid_members_closure :
    (∀ (snap : List SysProcess) (p : ℕ) (members : List ℕ),
        resolve_pid_members snap p = some members →
        ∀ q, q ∈ members ↔ Reaches snap p q) ∧
    resolve_pid_members demoSnap 1 = some [1, 2, 3] ∧
    resolve_pid_members demoSnap 4 = some [4] ∧
    resolve_pid_members demoSnap 99 = none := by
  refine ⟨?_, by decide, by decide, by decide⟩
  intro snap p members hres q
  rcases hf : snap.find? (fun r => r.pid = p) with _ | proc
  · simp [resolve_pid_members, hf] at hres
  · simp only [resolve_pid_members, hf] at hres
    have hm : members = p :: (collect_child_pids snap [p] (insert p ∅)).1 :=
      Option.some.inj hres.symm
    subst hm
    have hgood := collectFuel_good snap (snap.length + 1)
    have hset := hgood.2.1 [p] (insert p ∅)
    have hmono := hgood.1 [p] (insert p ∅)
    constructor
    · intro hq
      rcases List.mem_cons.mp hq with rfl | hq
      · exact Relation.ReflTransGen.refl
      · obtain ⟨a, ha, hreach⟩ :=
          collectFuel_sound snap (snap.length + 1) [p] (insert p ∅) q hq
        simp only [List.mem_singleton] at ha
        subst ha
        exact hreach
    · intro hreach
      have hcard := pids_card_le snap (insert p ∅)
      have hclosed := collectFuel_closed snap (snap.length + 1) [p] (insert p ∅)
        (by omega)
      have hstep : ∀ a b, a ∈ (collectFuel snap (snap.length + 1) [p] (insert p ∅)).2 →
          IsChildOf snap a b →
          b ∈ (collectFuel snap (snap.length + 1) [p] (insert p ∅)).2 := by
        intro a b ha hab
        obtain ⟨r, hr, rfl, hpar⟩ := hab
        by_cases hap : a = p
        · exact hclosed.1 r hr a hpar (by simp [hap])
        · exact hclosed.2 r hr a hpar ha (by simp [hap])
      have hqin : q ∈ (collectFuel snap (snap.length + 1) [p] (insert p ∅)).2 := by
        induction hreach with
        | refl => exact hmono (by simp)
        | tail hab hlast ih => exact hstep _ _ ih hlast
      rw [hset] at hqin
      simp only [Finset.mem_union, Finset.mem_insert, Finset.not_mem_empty,
        or_false, List.mem_toFinset] at hqin
      rcases hqin with rfl | hq
      · exact List.mem_cons_self _ _
      · exact List.mem_cons_of_mem _ hq

/-- Witness for C4: on the spec's snapshot, membership of 3 in the resolved
list for pid 1 corresponds to reachability 1 → 2 → 3. -/
theorem resolve_pid_members_closure_witness : Reaches demoSnap 1 3 :=
  ((resolve_pid_members_closure.1 demoSnap 1 [1, 2, 3] (by decide)) 3).mp (by decide)

theorem addChild_measure_le (snap : List SysProcess) (acc : List ProcessInfo × ℕ)
    (cpid : ℕ) :
    acc.1.length + acc.2 ≤ (addChild snap acc cpid).1.length + (addChild snap acc cpid).2 := by
  unfold addChild
  rcases hf : snap.find? (fun r => r.pid = cpid) with _ | cp
  · simp [hf]
  · simp only [hf]
    by_cases ht : (collect_process_info cp).is_thread
    · simp [ht]
    · simp [ht]

theorem foldl_addChild_measure (snap : List SysProcess) :
    ∀ (l : List ℕ) (acc : List ProcessInfo × ℕ),
      acc.1.length + acc.2
        ≤ (l.foldl (addChild snap) acc).1.length + (l.foldl (addChild snap) acc).2 := by
  intro l
  induction l with
  | nil => intro acc; exact le_refl _
  | cons x t ih =>
      intro acc
      calc acc.1.length + acc.2 ≤ _ := addChild_measure_le snap acc x
        _ ≤ _ := ih (addChild snap acc x)

theorem addChild_measure_found (snap : List SysProcess) (acc : List ProcessInfo × ℕ)
    (cpid : ℕ) (hfound : ∃ r ∈ snap, r.pid = cpid) :
    acc.1.length + acc.2 + 1
      ≤ (addChild snap acc cpid).1.length + (addChild snap acc cpid).2 := by
  unfold addChild
  rcases hf : snap.find? (fun r => r.pid = cpid) with _ | cp
  · rw [List.find?_eq_none] at hf
    obtain ⟨r, hr, hpid⟩ := hfound
    exact absurd (by simpa using hpid) (hf r hr)
  · simp only [hf]
    by_cases ht : (collect_process_info cp).is_thread
    · simp [ht]
      omega
    · simp [ht]
      omega

theorem foldl_addChild_found_pos (snap : List SysProcess) (l : List ℕ)
    (acc : List ProcessInfo × ℕ) (hl : l ≠ [])
    (hfound : ∀ x ∈ l, ∃ r ∈ snap, r.pid = x) :
    1 ≤ (l.foldl (addChild snap) acc).1.length + (l.foldl (addChild snap) acc).2 := by
  cases l with
  | nil => exact absurd rfl hl
  | cons q qs =>
      rw [List.foldl_cons]
      have h1 := addChild_measure_found snap acc q (hfound q (by simp))
      have h2 := foldl_addChild_measure snap qs (addChild snap acc q)
      omega

/-- Claim C5: resolution is total and never partial: it returns `none`
exactly when a `Pid` target has no snapshot row (respectively a `Name`
target matches no row's name, by case-sensitive exact equality), and every
`some` result carries at least one member (counting non-thread infos plus
counted threads). -/
theorem collect_processes_none_iff_nonempty
    (snap : List SysProcess) (ident : ProcessIdentifier) :
    (collect_processes snap ident = none ↔
      (match ident with
       | ProcessIdentifier.Pid p => ∀ r ∈ snap, r.pid ≠ p
       | ProcessIdentifier.Name n => ∀ r ∈ snap, r.name ≠ n)) ∧
    (∀ procs tc, collect_processes snap ident = some (procs, tc) →
      1 ≤ procs.length + tc) := by
  cases ident with
  | Pid p =>
      rcases hf : snap.find? (fun r => r.pid = p) with _ | proc
      · constructor
        · simp only [collect_processes, hf]
          rw [List.find?_eq_none] at hf
          simp only [true_iff]
          intro r hr
          simpa using hf r hr
        · intro procs tc hres
          simp [collect_processes, hf] at hres
      · constructor
        · simp only [collect_processes, hf]
          constructor
          · intro h; cases h
          · intro hnone
            have hmem := List.mem_of_find?_eq_some hf
            have hpid : proc.pid = p := by simpa using List.find?_some hf
            exact absurd hpid (hnone proc hmem)
        · intro procs tc hres
          simp only [collect_processes, hf] at hres
          have hpair := Option.some.inj hres
          have hstart : (1 : ℕ) ≤
              (if (collect_process_info proc).is_thread
               then (([] : List ProcessInfo), 1)
               else ([collect_process_info proc], 0)).1.length +
              (if (collect_process_info proc).is_thread
               then (([] : List ProcessInfo), 1)
               else ([collect_process_info proc], 0)).2 := by
            by_cases ht : (collect_process_info proc).is_thread <;> simp [ht]
          have hle := foldl_addChild_measure snap
            ((collect_child_pids snap [p] (insert p ∅)).1)
            (if (collect_process_info proc).is_thread
             then (([] : List ProcessInfo), 1) else ([collect_process_info proc], 0))
          rw [hpair] at hle
          have := le_trans hstart hle
          simpa using this
  | Name n =>
      by_cases hemp : ((snap.filter (fun r => r.name = n)).map SysProcess.pid).isEmpty
      · constructor
        · simp only [collect_processes, if_pos hemp, true_iff]
          rw [List.isEmpty_iff, List.map_eq_nil_iff, List.filter_eq_nil_iff] at hemp
          intro r hr
          simpa using hemp r hr
        · intro procs tc hres
          simp only [collect_processes, if_pos hemp] at hres
          exact Option.noConfusion hres
      · constructor
        · simp only [collect_processes, if_neg hemp]
          constructor
          · intro h; cases h
          · intro hnone
            rw [List.isEmpty_iff, List.map_eq_nil_iff, List.filter_eq_nil_iff] at hemp
            refine absurd ?_ hemp
            intro r hr
            simpa using hnone r hr
        · intro procs tc hres
          simp only [collect_processes, if_neg hemp] at hres
          have hpair := Option.some.inj hres
          have hne : (snap.filter (fun r => r.name = n)).map SysProcess.pid ≠ [] := by
            intro h
            rw [h] at hemp
            simp at hemp
          have hfound : ∀ x ∈ (snap.filter (fun r => r.name = n)).map SysProcess.pid,
              ∃ r ∈ snap, r.pid = x := by
            intro x hx
            obtain ⟨r, hr, hrq⟩ := List.mem_map.mp hx
            exact ⟨r, List.mem_of_mem_filter hr, hrq⟩
          have hstart := foldl_addChild_found_pos snap
            ((snap.filter (fun r => r.name = n)).map SysProcess.pid) ([], 0) hne hfound
          have hle := foldl_addChild_measure snap
            ((collect_child_pids snap
              ((snap.filter (fun r => r.name = n)).map SysProcess.pid)
              (((snap.filter (fun r => r.name = n)).map SysProcess.pid).foldl
                (fun s pid => insert pid s) ∅)).1)
            (((snap.filter (fun r => r.name = n)).map SysProcess.pid).foldl
              (addChild snap) ([], 0))
          rw [hpair] at hle
          have := le_trans hstart hle
          simpa using this

/-- Witness for C5: a one-process snapshot resolved by its pid yields one
member and zero threads. -/
theorem collect_processes_none_iff_nonempty_witness :
    1 ≤ ([collect_process_info
          { pid := 1, parent := none, name := "a", cpu_usage := 0, memory := 0,
            thread_kind := false }] : List ProcessInfo).length + 0 :=
  (collect_processes_none_iff_nonempty
      [{ pid := 1, parent := none, name := "a", cpu_usage := 0, memory := 0,
         thread_kind := false }] (ProcessIdentifier.Pid 1)).2
    [collect_process_info
      { pid := 1, parent := none, name := "a", cpu_usage := 0, memory := 0,
        thread_kind := false }] 0 rfl

/-- Claim C3 is violated by the worker loop of `Metrics::new`
(src/metrics/mod.rs, the failing input evaluated): the only match for name
`"w"` is a thread (`thread_kind` set) with CPU 2 and 2 MiB of memory, yet
the published stats carry its CPU in `current_cpu`, its raw memory in
`memory_mb` and its row in `processes` — the claim (and spec §4.4 / §8)
require an `is_thread` member to increment only the thread count. The same
loop zeroes the thread's memory inside the `ProcessInfo` it publishes, so
the raw-memory total contradicts the loop's own per-member zeroing — see
`collect_processes_thread_exclusion` for the conforming monitor path. -/
theorem worker_stats_thread_contributes :
    worker_stats
        [{ pid := 5, parent := none, name := "w", cpu_usage := 2,
           memory := 2097152, thread_kind := true }] "w"
      = some
          { current_cpu := 2, avg_cpu := 2, peak_cpu := 2, memory_mb := 2,
            peak_memory_mb := 2,
            processes := [{ name := "w", pid := 5, parent_pid := none,
                            cpu_usage := 2, memory_mb := 0, is_thread := true }],
            thread_count := 1 } := by
  norm_num +decide [worker_stats, worker_matched, worker_info, List.filter]

/-- Claim C6 (the capacity-change reaction is modelled from the spec, the
consuming engine revision being absent from src/): whenever the configured
capacity differs from the one the store was built with, the whole store is
rebuilt empty at the new capacity — the result is exactly a fresh store, no
entry of the old history survives. -/
theorem reconfigure_store_rebuilds_empty (h : PH2) (configured : ℕ)
    (hne : h.history_max_points ≠ configured) :
    reconfigure_store h configured = PH2.new configured ∧
    (reconfigure_store h configured).histories = [] ∧
    (reconfigure_store h configured).history_max_points = configured ∧
    ∀ i, (reconfigure_store h configured).get_process_cpu_history i = none := by
  have heq : reconfigure_store h configured = PH2.new configured := by
    unfold reconfigure_store
    rw [if_neg hne]
  refine ⟨heq, ?_, ?_, ?_⟩ <;> rw [heq] <;>
    simp [PH2.new, PH2.get_process_cpu_history]

/-- Witness for C6: the spec's 100 → 50 change on a store holding one group
rebuilds to the empty 50-capacity store. -/
theorem reconfigure_store_rebuilds_empty_witness :
    reconfigure_store
        { histories := [ProcessGroup.new 100], history_max_points := 100 } 50
      = PH2.new 50 :=
  (reconfigure_store_rebuilds_empty
      { histories := [ProcessGroup.new 100], history_max_points := 100 } 50
      (by decide)).1

/-- Counterexample to claim C7 as stated: in src/process/history.rs the
child-history map is shared by all monitored processes, and
`clear_process(0)` erases the child history of pid 7 — a buffer belonging to
group 1's tree, not group 0 — so another group's member history does not
stay unchanged. -/
theorem clear_process_wipes_shared_children :
    (ph1Demo.clear_process 0).get_child_cpu_history 7 = none ∧
    ph1Demo.get_child_cpu_history 7 = some [0, 0, 5] := by
  norm_num [ph1Demo, PH1.new, PH1.update_process_cpu, PH1.update_child_cpu,
    PH1.ensure_process_exists, PH1.clear_process, PH1.get_child_cpu_history,
    updateEntry, lookupEntry, ProcessMetrics.new, ProcessMetrics.update_cpu,
    ProcessMetrics.get_cpu_history, CircularBuffer.new, CircularBuffer.push,
    CircularBuffer.as_slice, CircularBuffer.as_slices, List.replicate,
    List.modify, List.find?]

/-- Claim C7 amended: in the grouped revision
(src/metrics/process/history.rs) `clear_process(idx)` replaces exactly the
group at `idx` (main and per-member buffers) with a fresh one, keeps the
capacity, and leaves every other group's entry unchanged; in
src/process/history.rs it resets group `idx`'s main buffers and leaves other
groups' main buffers unchanged, but empties the child-history map shared by
all groups. -/
theorem clear_process_isolated :
    (∀ (h : PH2) (idx : ℕ), idx < h.histories.length →
      ((h.clear_process idx).histories.get? idx
          = some (ProcessGroup.new h.history_max_points) ∧
       (∀ j, j ≠ idx → (h.clear_process idx).histories.get? j = h.histories.get? j) ∧
       (h.clear_process idx).history_max_points = h.history_max_points)) ∧
    (∀ (h : PH1) (idx : ℕ), idx < h.histories.length →
      ((h.clear_process idx).histories.get? idx
          = some (ProcessMetrics.new h.history_max_points) ∧
       (∀ j, j ≠ idx → (h.clear_process idx).histories.get? j = h.histories.get? j) ∧
       (h.clear_process idx).child_histories = [])) := by
  constructor
  · intro h idx hidx
    refine ⟨?_, ?_, ?_⟩
    · simp only [PH2.clear_process, if_pos hidx]
      rw [List.get?_eq_getElem?, List.getElem?_set_self']
      simp [List.getElem?_eq_getElem hidx]
    · intro j hj
      simp only [PH2.clear_process, if_pos hidx]
      simp [List.get?_eq_getElem?, List.getElem?_set_ne (fun hh => hj hh.symm)]
    · simp [PH2.clear_process, if_pos hidx]
  · intro h idx hidx
    refine ⟨?_, ?_, ?_⟩
    · simp only [PH1.clear_process, if_pos hidx]
      rw [List.get?_eq_getElem?, List.getElem?_set_self']
      simp [List.getElem?_eq_getElem hidx]
    · intro j hj
      simp only [PH1.clear_process, if_pos hidx]
      simp [List.get?_eq_getElem?, List.getElem?_set_ne (fun hh => hj hh.symm)]
    · simp [PH1.clear_process, if_pos hidx]

/-- Witness for the amended C7 on the grouped revision: clearing group 0 of
a two-group store leaves group 1's entry untouched. -/
theorem clear_process_isolated_witness :
    (({ histories := [ProcessGroup.new 3, ProcessGroup.new 3],
        history_max_points := 3 } : PH2).clear_process 0).histories.get? 1
      = some (ProcessGroup.new 3) := by
  have h := (clear_process_isolated.1
    { histories := [ProcessGroup.new 3, ProcessGroup.new 3], history_max_points := 3 }
    0 (by decide)).2.1 1 (by decide)
  rw [h]
  rfl

/-! ## Decimal rendering and parsing round trip (claim C10) -/

theorem digit_char_facts (d : ℕ) (hd : d < 10) :
    (Char.ofNat (48 + d)).isDigit = true ∧ (Char.ofNat (48 + d)).toNat = 48 + d ∧
    Char.ofNat (48 + d) ≠ Char.ofNat 43 := by
  interval_cases d <;> refine ⟨by decide, by decide, by decide⟩

theorem toDecimalAux_eq (n : ℕ) :
    ∀ (fuel : ℕ) (acc : List Char), n < fuel →
      toDecimalAux fuel n acc = natToChars n ++ acc := by
  induction n using Nat.strong_induction_on with
  | _ n ih =>
      intro fuel acc hfuel
      cases fuel with
      | zero => omega
      | succ f =>
          by_cases h10 : n < 10
          · simp only [toDecimalAux, if_pos h10, natToChars]
            simp [toDecimalAux, if_pos h10]
          · have hdiv : n / 10 < n := Nat.div_lt_self (by omega) (by omega)
            have hr : natToChars n
                = natToChars (n / 10) ++ [Char.ofNat (48 + n % 10)] := by
              unfold natToChars
              simp only [toDecimalAux, if_neg h10]
              exact ih (n / 10) hdiv n [Char.ofNat (48 + n % 10)] (by omega)
            simp only [toDecimalAux, if_neg h10]
            rw [ih (n / 10) hdiv f (Char.ofNat (48 + n % 10) :: acc) (by omega), hr]
            simp

theorem natToChars_split (n : ℕ) (h10 : ¬ n < 10) :
    natToChars n = natToChars (n / 10) ++ [Char.ofNat (48 + n % 10)] := by
  have hdiv : n / 10 < n := Nat.div_lt_self (by omega) (by omega)
  unfold natToChars
  simp only [toDecimalAux, if_neg h10]
  exact toDecimalAux_eq (n / 10) n [Char.ofNat (48 + n % 10)] (by omega)

theorem natToChars_small (n : ℕ) (h10 : n < 10) :
    natToChars n = [Char.ofNat (48 + n % 10)] := by
  unfold natToChars
  simp [toDecimalAux, if_pos h10]

theorem natToChars_shape (n : ℕ) :
    ∃ c t, natToChars n = c :: t ∧ (c :: t).all (fun ch => ch.isDigit) = true := by
  induction n using Nat.strong_induction_on with
  | _ n ih =>
      by_cases h10 : n < 10
      · refine ⟨Char.ofNat (48 + n % 10), [], natToChars_small n h10, ?_⟩
        simp [(digit_char_facts (n % 10) (by omega)).1]
      · have hdiv : n / 10 < n := Nat.div_lt_self (by omega) (by omega)
        obtain ⟨c, t, hct, hall⟩ := ih (n / 10) hdiv
        refine ⟨c, t ++ [Char.ofNat (48 + n % 10)], ?_, ?_⟩
        · rw [natToChars_split n h10, hct]
          simp
        · simp only [List.all_cons, List.all_append, Bool.and_eq_true] at hall ⊢
          exact ⟨hall.1, hall.2, by
            simp [(digit_char_facts (n % 10) (by omega)).1]⟩

theorem natToChars_foldl (n : ℕ) :
    ∀ a : ℕ, (natToChars n).foldl (fun acc ch => 10 * acc + (ch.toNat - 48)) a
      = a * 10 ^ (natToChars n).length + n := by
  induction n using Nat.strong_induction_on with
  | _ n ih =>
      intro a
      by_cases h10 : n < 10
      · rw [natToChars_small n h10]
        simp only [List.foldl_cons, List.foldl_nil, List.length_cons,
          List.length_nil]
        rw [(digit_char_facts (n % 10) (by omega)).2.1]
        have : n % 10 = n := Nat.mod_eq_of_lt h10
        simp [this]
        ring
      · have hdiv : n / 10 < n := Nat.div_lt_self (by omega) (by omega)
        rw [natToChars_split n h10]
        rw [List.foldl_append, ih (n / 10) hdiv a]
        simp only [List.foldl_cons, List.foldl_nil, List.length_append,
          List.length_cons, List.length_nil]
        rw [(digit_char_facts (n % 10) (by omega)).2.1]
        have hdm : 10 * (n / 10) + n % 10 = n := Nat.div_add_mod n 10
        calc 10 * (a * 10 ^ (natToChars (n / 10)).length + n / 10) + (48 + n % 10 - 48)
            = a * 10 ^ ((natToChars (n / 10)).length + 1)
              + (10 * (n / 10) + n % 10) := by
              simp only [Nat.add_sub_cancel_left, pow_succ]
              ring
          _ = a * 10 ^ ((natToChars (n / 10)).length + 1) + n := by rw [hdm]

theorem parse_usize_natToChars (n : ℕ) (hn : n < 2 ^ 64) :
    parse_usize (natToChars n) = some n := by
  obtain ⟨c, t, hct, hall⟩ := natToChars_shape n
  have hcd : c.isDigit = true := by
    simp only [List.all_cons, Bool.and_eq_true] at hall
    exact hall.1
  have hcplus : ¬ c = '+' := by
    intro heq
    rw [heq] at hcd
    cases hcd
  have hplus : stripPlus (natToChars n) = natToChars n := by
    rw [hct]
    simp [stripPlus, hcplus]
  unfold parse_usize
  rw [hplus, natToChars_foldl n 0]
  simp only [zero_mul, zero_add]
  rw [hct]
  simp [hall]
  omega

/-- Counterexample to claim C10 as stated: the identifier `Name("pid:5")`
prints as the text `pid:5`, which the parser maps to `Pid 5`, not back to
the name. -/
theorem identifier_round_trip_counterexample :
    ProcessIdentifier.from_str (ProcessIdentifier.Name "pid:5").to_string
      = ProcessIdentifier.Pid 5 ∧
    ProcessIdentifier.from_str (ProcessIdentifier.Name "pid:5").to_string
      ≠ ProcessIdentifier.Name "pid:5" := by
  constructor <;> decide

/-- Claim C10 amended: parsing inverts printing for every `Pid p` (the pid
being a `usize`, below `2^64`), and for exactly those `Name n` whose text
the parser does not already map away from a plain name; a `Name` whose text
is `pid:` followed by a parseable number — e.g. `Name("pid:5")` — instead
round-trips to the corresponding `Pid`. -/
theorem identifier_round_trip_amended :
    (∀ p : ℕ, p < 2 ^ 64 →
      ProcessIdentifier.from_str (ProcessIdentifier.Pid p).to_string
        = ProcessIdentifier.Pid p) ∧
    (∀ n : String, ProcessIdentifier.from_str n = ProcessIdentifier.Name n →
      ProcessIdentifier.from_str (ProcessIdentifier.Name n).to_string
        = ProcessIdentifier.Name n) := by
  constructor
  · intro p hp
    have htl : (ProcessIdentifier.Pid p).to_string.toList
        = ['p', 'i', 'd', ':'] ++ natToChars p := rfl
    unfold ProcessIdentifier.from_str
    rw [htl]
    rw [List.take_append_eq_append_take, List.drop_append_eq_append_drop]
    norm_num
    rw [parse_usize_natToChars p hp]
  · intro n hn
    exact hn

/-- Witness for the amended C10: `Pid 5071` prints as `pid:5071` and parses
back to itself. -/
theorem identifier_round_trip_amended_witness :
    ProcessIdentifier.from_str (ProcessIdentifier.Pid 5071).to_string
      = ProcessIdentifier.Pid 5071 :=
  identifier_round_trip_amended.1 5071 (by norm_num)

theorem addChild_no_thread (snap : List SysProcess) (acc : List ProcessInfo × ℕ)
    (cpid : ℕ) (h : ∀ i ∈ acc.1, i.is_thread = false) :
    ∀ i ∈ (addChild snap acc cpid).1, i.is_thread = false := by
  unfold addChild
  rcases hf : snap.find? (fun r => r.pid = cpid) with _ | cp
  · simp only [hf]
    exact h
  · simp only [hf]
    by_cases ht : (collect_process_info cp).is_thread
    · simp only [if_pos ht]
      exact h
    · simp only [if_neg ht]
      intro i hi
      rcases List.mem_append.mp hi with hi | hi
      · exact h i hi
      · simp only [List.mem_singleton] at hi
        subst hi
        simpa using ht

theorem foldl_addChild_no_thread (snap : List SysProcess) :
    ∀ (l : List ℕ) (acc : List ProcessInfo × ℕ),
      (∀ i ∈ acc.1, i.is_thread = false) →
      ∀ i ∈ (l.foldl (addChild snap) acc).1, i.is_thread = false := by
  intro l
  induction l with
  | nil => intro acc h; exact h
  | cons x t ih =>
      intro acc h
      exact ih (addChild snap acc x) (addChild_no_thread snap acc x h)

/-- The monitor path of `src/process/monitor.rs` conforms to the thread
exclusion the spec demands: `collect_processes` never places a thread's info
in the member list, so `calculate_stats` (which folds over that list) never
counts a thread's CPU or memory, and the process count excludes threads. -/
theorem collect_processes_thread_exclusion
    (snap : List SysProcess) (ident : ProcessIdentifier)
    (procs : List ProcessInfo) (tc : ℕ)
    (hres : collect_processes snap ident = some (procs, tc)) :
    ∀ info ∈ procs, info.is_thread = false := by
  cases ident with
  | Pid p =>
      rcases hf : snap.find? (fun r => r.pid = p) with _ | proc
      · simp [collect_processes, hf] at hres
      · simp only [collect_processes, hf] at hres
        have hpair := Option.some.inj hres
        have hstart : ∀ i ∈ (if (collect_process_info proc).is_thread
            then (([] : List ProcessInfo), 1)
            else ([collect_process_info proc], 0)).1, i.is_thread = false := by
          by_cases ht : (collect_process_info proc).is_thread
          · simp [ht]
          · simp only [if_neg ht]
            intro i hi
            simp only [List.mem_singleton] at hi
            subst hi
            simpa using ht
        have := foldl_addChild_no_thread snap
          ((collect_child_pids snap [p] (insert p ∅)).1)
          (if (collect_process_info proc).is_thread
           then (([] : List ProcessInfo), 1)
           else ([collect_process_info proc], 0)) hstart
        rw [hpair] at this
        exact this
  | Name n =>
      by_cases hemp : ((snap.filter (fun r => r.name = n)).map SysProcess.pid).isEmpty
      · simp only [collect_processes, if_pos hemp] at hres
        exact Option.noConfusion hres
      · simp only [collect_processes, if_neg hemp] at hres
        have hpair := Option.some.inj hres
        have hstart := foldl_addChild_no_thread snap
          ((snap.filter (fun r => r.name = n)).map SysProcess.pid)
          ([], 0) (by intro i hi; simp at hi)
        have := foldl_addChild_no_thread snap
          ((collect_child_pids snap
            ((snap.filter (fun r => r.name = n)).map SysProcess.pid)
            (((snap.filter (fun r => r.name = n)).map SysProcess.pid).foldl
              (fun s pid => insert pid s) ∅)).1)
          (((snap.filter (fun r => r.name = n)).map SysProcess.pid).foldl
            (addChild snap) ([], 0)) hstart
        rw [hpair] at this
        exact this

end Tvis
